import Mathlib

/-!
Verification of the denormalisation core of the conference-scheduler CLI
(`src/scheduler/denormalise.py`).  The Python functions are shallowly
embedded: YAML-derived dicts become insertion-ordered association lists,
`list.index` becomes `idxOf` (first structural match), `datetime` values
become a calendar date paired with a second-of-day, and the
`strftime`/`strptime` pair for the pattern `%d-%b-%Y %H:%M` is modelled
character by character.
-/

namespace Scheduler

/-! ## Data model -/

/-- Calendar date, as Python's `datetime.date`. -/
structure Date where
  year : Nat
  month : Nat
  day : Nat
deriving DecidableEq, Repr

/-- A `datetime.datetime` value: a date plus the second of the day. -/
abbrev DateTime := Date × Nat

/-- One slot specification from the nested venue definition. -/
structure SlotSpec where
  event_type : String
  starts_at : Nat
  duration : Nat
  capacity : Nat
deriving DecidableEq, Repr

/-- The `conference_scheduler.resources.Slot` record as populated here. -/
structure Slot where
  venue : String
  starts_at : String
  duration : Nat
  session : String
  capacity : Nat
deriving DecidableEq, Repr

/-- One element of the `types_and_slots` output: `{'event_type': ..., 'slot': ...}`. -/
structure TypedSlot where
  event_type : String
  slot : Slot
deriving DecidableEq, Repr

/-- One event specification from the events definition list. -/
structure EventDef where
  title : String
  duration : Nat
  tags : List String
  person : String
  event_type : String
deriving DecidableEq, Repr

/-- The `conference_scheduler.resources.Event` record as populated by
`types_and_events`: it is built as `Event(title, duration, demand=None,
tags=tags)` and therefore has no owning-person field. -/
structure Event where
  name : String
  duration : Nat
  demand : Option Nat
  tags : List String
deriving DecidableEq, Repr

/-- One element of the `types_and_events` output. -/
structure TypedEvent where
  event_type : String
  event : Event
deriving DecidableEq, Repr

/-- One unavailability period: a closed interval of datetimes. -/
structure Period where
  unavailable_from : DateTime
  unavailable_until : DateTime
deriving DecidableEq, Repr

/-- The nested venue definition: venue → day → session → slot specs,
with each Python dict modelled as an insertion-ordered association list. -/
abbrev Venues := List (String × List (Date × List (String × List SlotSpec)))

/-! ## Python dicts as insertion-ordered association lists -/

/-- Python dict, modelled as an insertion-ordered association list. -/
abbrev Dict (κ α : Type) := List (κ × α)

/-- The key list of a dict, in insertion order. -/
def keys {κ α : Type} (d : Dict κ α) : List κ := d.map Prod.fst

/-- Key lookup, first matching entry (keys are unique in a real dict). -/
def dlookup {κ α : Type} [DecidableEq κ] : Dict κ α → κ → Option α
  | [], _ => none
  | e :: es, k => if e.1 = k then some e.2 else dlookup es k

/-- Assignment `d[k] = v`: overwrite in place if the key exists (keeping
its position, as Python dicts do), otherwise append at the end. -/
def dictInsert {κ α : Type} [DecidableEq κ] : Dict κ α → κ → α → Dict κ α
  | [], k, v => [(k, v)]
  | e :: es, k, v => if e.1 = k then (k, v) :: es else e :: dictInsert es k v

/-- Build a dict from an ordered list of key/value writes, as a Python
dict comprehension or an assignment loop does (later writes win). -/
def buildDict {κ α : Type} [DecidableEq κ] (ws : List (κ × α)) : Dict κ α :=
  ws.foldl (fun d w => dictInsert d w.1 w.2) []

/-- Python `list.index`: position of the first structurally equal element. -/
def idxOf {α : Type} [DecidableEq α] : List α → α → Nat
  | [], _ => 0
  | x :: xs, a => if x = a then 0 else idxOf xs a + 1

/-! ## Calendar arithmetic -/

/-- Gregorian leap-year test. -/
def isLeap (y : Nat) : Bool := y % 4 == 0 && (y % 100 != 0 || y % 400 == 0)

/-- Number of days in a month. -/
def daysInMonth (y m : Nat) : Nat :=
  if m = 2 then (if isLeap y then 29 else 28)
  else if m = 4 ∨ m = 6 ∨ m = 9 ∨ m = 11 then 30 else 31

/-- The day after a given date. -/
def nextDay (d : Date) : Date :=
  if d.day < daysInMonth d.year d.month then ⟨d.year, d.month, d.day + 1⟩
  else if d.month < 12 then ⟨d.year, d.month + 1, 1⟩
  else ⟨d.year + 1, 1, 1⟩

/-- Advance a date by a number of days. -/
def addDays (d : Date) : Nat → Date
  | 0 => d
  | n + 1 => addDays (nextDay d) n

/-- Python's `datetime.combine(day, datetime.min.time()) +
timedelta(seconds=s)`: midnight of the day plus an offset in seconds. -/
def combine_add (day : Date) (s : Nat) : DateTime :=
  (addDays day (s / 86400), s % 86400)

/-- Adding `timedelta(seconds=s)` to an arbitrary datetime. -/
def addSecondsDT (dt : DateTime) (s : Nat) : DateTime :=
  (addDays dt.1 ((dt.2 + s) / 86400), (dt.2 + s) % 86400)

/-- Chronological order on datetimes, as Python compares `datetime`
objects (lexicographic on year, month, day, time of day). -/
def dtLe (a b : DateTime) : Bool :=
  if a.1.year ≠ b.1.year then decide (a.1.year < b.1.year)
  else if a.1.month ≠ b.1.month then decide (a.1.month < b.1.month)
  else if a.1.day ≠ b.1.day then decide (a.1.day < b.1.day)
  else decide (a.2 ≤ b.2)

/-! ## strftime / strptime for the pattern `%d-%b-%Y %H:%M` -/

/-- Two-digit zero-padded decimal rendering (`%d`, `%H`, `%M`, `%m`). -/
def pad2 (n : Nat) : List Char := [Nat.digitChar (n / 10 % 10), Nat.digitChar (n % 10)]

/-- Four-digit zero-padded decimal rendering (`%Y`). -/
def pad4 (n : Nat) : List Char :=
  [Nat.digitChar (n / 1000 % 10), Nat.digitChar (n / 100 % 10),
   Nat.digitChar (n / 10 % 10), Nat.digitChar (n % 10)]

/-- C-locale month abbreviations (`%b`). -/
def monthAbbrev : Nat → List Char
  | 1 => ['J', 'a', 'n']
  | 2 => ['F', 'e', 'b']
  | 3 => ['M', 'a', 'r']
  | 4 => ['A', 'p', 'r']
  | 5 => ['M', 'a', 'y']
  | 6 => ['J', 'u', 'n']
  | 7 => ['J', 'u', 'l']
  | 8 => ['A', 'u', 'g']
  | 9 => ['S', 'e', 'p']
  | 10 => ['O', 'c', 't']
  | 11 => ['N', 'o', 'v']
  | 12 => ['D', 'e', 'c']
  | _ => []

/-- `dt.strftime('%d-%b-%Y %H:%M')`. -/
def strftimeFmt (dt : DateTime) : String :=
  ⟨pad2 dt.1.day ++ ('-' :: (monthAbbrev dt.1.month ++ ('-' :: (pad4 dt.1.year ++
    (' ' :: (pad2 (dt.2 / 3600) ++ (':' :: pad2 (dt.2 % 3600 / 60))))))))⟩

/-- Python `str(date)`, used by the f-string session label: ISO `YYYY-MM-DD`. -/
def dateStr (d : Date) : String :=
  ⟨pad4 d.year ++ ('-' :: (pad2 d.month ++ ('-' :: pad2 d.day)))⟩

/-- Decimal digit value of a character, if it is a digit. -/
def digit? (c : Char) : Option Nat :=
  if '0' ≤ c ∧ c ≤ '9' then some (c.toNat - 48) else none

/-- Read exactly two decimal digits. -/
def parse2 : List Char → Option (Nat × List Char)
  | a :: b :: rest =>
    match digit? a, digit? b with
    | some x, some y => some (10 * x + y, rest)
    | _, _ => none
  | _ => none

/-- Read exactly four decimal digits. -/
def parse4 : List Char → Option (Nat × List Char)
  | a :: b :: c :: d :: rest =>
    match digit? a, digit? b, digit? c, digit? d with
    | some x, some y, some z, some w => some (1000 * x + 100 * y + 10 * z + w, rest)
    | _, _, _, _ => none
  | _ => none

/-- Month number of a C-locale month abbreviation. -/
def monthNum (a b c : Char) : Option Nat :=
  if a = 'J' ∧ b = 'a' ∧ c = 'n' then some 1
  else if a = 'F' ∧ b = 'e' ∧ c = 'b' then some 2
  else if a = 'M' ∧ b = 'a' ∧ c = 'r' then some 3
  else if a = 'A' ∧ b = 'p' ∧ c = 'r' then some 4
  else if a = 'M' ∧ b = 'a' ∧ c = 'y' then some 5
  else if a = 'J' ∧ b = 'u' ∧ c = 'n' then some 6
  else if a = 'J' ∧ b = 'u' ∧ c = 'l' then some 7
  else if a = 'A' ∧ b = 'u' ∧ c = 'g' then some 8
  else if a = 'S' ∧ b = 'e' ∧ c = 'p' then some 9
  else if a = 'O' ∧ b = 'c' ∧ c = 't' then some 10
  else if a = 'N' ∧ b = 'o' ∧ c = 'v' then some 11
  else if a = 'D' ∧ b = 'e' ∧ c = 'c' then some 12
  else none

/-- Read a three-letter month abbreviation (`%b`). -/
def parseMonth : List Char → Option (Nat × List Char)
  | a :: b :: c :: rest =>
    match monthNum a b c with
    | some m => some (m, rest)
    | none => none
  | _ => none

/-- Consume one expected literal character. -/
def expectChar (c : Char) : List Char → Option (List Char)
  | x :: rest => if x = c then some rest else none
  | _ => none

/-- The local helper of `unavailability`:
`datetime.strptime(datetime_as_string, '%d-%b-%Y %H:%M')`.  Python raises
`ValueError` on a malformed string or an out-of-range component; that
failure is modelled as `none`. -/
def to_datetime (datetime_as_string : String) : Option DateTime :=
  (parse2 datetime_as_string.toList).bind fun p1 =>
  (expectChar '-' p1.2).bind fun r2 =>
  (parseMonth r2).bind fun p2 =>
  (expectChar '-' p2.2).bind fun r4 =>
  (parse4 r4).bind fun p3 =>
  (expectChar ' ' p3.2).bind fun r6 =>
  (parse2 r6).bind fun p4 =>
  (expectChar ':' p4.2).bind fun r8 =>
  (parse2 r8).bind fun p5 =>
  if p5.2 = [] ∧ 1 ≤ p3.1 ∧ 1 ≤ p1.1 ∧ p1.1 ≤ daysInMonth p3.1 p2.1 ∧
      p4.1 < 24 ∧ p5.1 < 60 then
    some (⟨p3.1, p2.1, p1.1⟩, p4.1 * 3600 + p5.1 * 60)
  else none

/-! ## The five source functions of `denormalise.py` -/

/-- The timestamp string computed for one slot inside `types_and_slots`. -/
def slotStartString (day : Date) (seconds : Nat) : String :=
  strftimeFmt (combine_add day seconds)

/-- `types_and_slots(venues)`: flatten venue → day → session → slot. -/
def types_and_slots (venues : Venues) : List TypedSlot :=
  venues.flatMap fun vd =>
    vd.2.flatMap fun ds =>
      ds.2.flatMap fun ss =>
        ss.2.map fun slot =>
          { event_type := slot.event_type,
            slot :=
              { venue := vd.1,
                starts_at := slotStartString ds.1 slot.starts_at,
                duration := slot.duration,
                session := dateStr ds.1 ++ " " ++ ss.1,
                capacity := slot.capacity } }

/-- `types_and_events(events_definition)`. -/
def types_and_events (events_definition : List EventDef) : List TypedEvent :=
  events_definition.map fun event =>
    { event_type := event.event_type,
      event :=
        { name := event.title, duration := event.duration,
          demand := none, tags := event.tags } }

/-- The per-slot filter condition of `unavailability`:
`period['unavailable_from'] <= to_datetime(slot.starts_at) and
period['unavailable_until'] >= to_datetime(slot.starts_at) +
timedelta(0, slot.duration * 60)`.  Python raises `ValueError` when the
timestamp does not parse; that case is modelled as `false` and every
theorem only applies the condition to slots whose timestamp parses. -/
def slotCond (period : Period) (slot : Slot) : Bool :=
  match to_datetime slot.starts_at with
  | some dt =>
    dtLe period.unavailable_from dt &&
      dtLe (addSecondsDT dt (slot.duration * 60)) period.unavailable_until
  | none => false

/-- `unavailability(events_definition, slots, unavailability_definition)`. -/
def unavailability (events_definition : List EventDef) (slots : List Slot)
    (unavailability_definition : Dict String (List Period)) : Dict Nat (List Nat) :=
  buildDict <|
    unavailability_definition.flatMap fun pp =>
      (events_definition.filter fun event => event.person == pp.1).map fun event =>
        (idxOf events_definition event,
          pp.2.flatMap fun period =>
            (slots.filter fun slot => slotCond period slot).map fun slot =>
              idxOf slots slot)

/-- First normalisation loop of `clashes`: every event owner missing from
the definitions gets the entry `person ↦ [person]`, appended at the end. -/
def addMissing (cd : Dict String (List String)) : List String → Dict String (List String)
  | [] => cd
  | p :: ps => addMissing (if p ∈ keys cd then cd else cd ++ [(p, [p])]) ps

/-- Second normalisation loop of `clashes`: append the person to their own
clashing-people list where missing, counting how many times that happened. -/
def addSelf : Dict String (List String) → Dict String (List String) × Nat
  | [] => ([], 0)
  | pc :: rest =>
    let r := addSelf rest
    if pc.1 ∈ pc.2 then (pc :: r.1, r.2)
    else ((pc.1, pc.2 ++ [pc.1]) :: r.1, r.2 + 1)

/-- `clashes(events_definition, clashes_definition)`.  The Python code
mutates the caller's `clashes_definition` in place; the first component of
the result is the post-state of that mapping, the second and third are the
returned `(clashes, count)` pair. -/
def clashes (events_definition : List EventDef)
    (clashes_definition : Dict String (List String)) :
    Dict String (List String) × Dict Nat (List Nat) × Nat :=
  let cd1 := addMissing clashes_definition (events_definition.map fun event => event.person)
  let r := addSelf cd1
  let m := buildDict <|
    r.1.flatMap fun pc =>
      (events_definition.filter fun event => event.person == pc.1).map fun event =>
        (idxOf events_definition event,
          pc.2.flatMap fun c =>
            (events_definition.filter fun t =>
              t.person == c && idxOf events_definition event != idxOf events_definition t).map
              fun t => idxOf events_definition t)
  (r.1, m, r.2)

/-- `unsuitability(types_and_slots, events_definition)`. -/
def unsuitability (types_and_slots : List TypedSlot)
    (events_definition : List EventDef) : Dict Nat (List Nat) :=
  buildDict <|
    events_definition.map fun event =>
      (idxOf events_definition event,
        (types_and_slots.enum.filter fun p => p.2.event_type != event.event_type).map
          Prod.fst)

/-! ## Library: `idxOf` -/

theorem idxOf_lt_length {α : Type} [DecidableEq α] {l : List α} {a : α} (h : a ∈ l) :
    idxOf l a < l.length := by
  induction l with
  | nil => cases h
  | cons x xs ih =>
    by_cases hx : x = a
    · simp [idxOf, hx]
    · have : a ∈ xs := by
        cases List.mem_cons.mp h with
        | inl h' => exact absurd h'.symm hx
        | inr h' => exact h'
      simpa [idxOf, hx] using Nat.succ_lt_succ (ih this)

theorem get_idxOf {α : Type} [DecidableEq α] {l : List α} {a : α} (h : a ∈ l) :
    l.get ⟨idxOf l a, idxOf_lt_length h⟩ = a := by
  induction l with
  | nil => cases h
  | cons x xs ih =>
    by_cases hx : x = a
    · simp [idxOf, hx]
    · have hmem : a ∈ xs := by
        cases List.mem_cons.mp h with
        | inl h' => exact absurd h'.symm hx
        | inr h' => exact h'
      simp only [idxOf, hx, if_false]
      simpa using ih hmem

theorem idxOf_le_of_get {α : Type} [DecidableEq α] {l : List α} {i : Nat} (h : i < l.length) :
    idxOf l (l.get ⟨i, h⟩) ≤ i := by
  induction l generalizing i with
  | nil => simp at h
  | cons x xs ih =>
    cases i with
    | zero => simp [idxOf]
    | succ n =>
      by_cases hx : x = xs.get ⟨n, Nat.lt_of_succ_lt_succ h⟩
      · simp [idxOf, List.get, hx]
      · simp only [List.get, idxOf, hx, if_false]
        exact Nat.succ_le_succ (ih _)

theorem idxOf_get_of_nodup {α : Type} [DecidableEq α] {l : List α} (hnd : l.Nodup)
    {i : Nat} (h : i < l.length) : idxOf l (l.get ⟨i, h⟩) = i := by
  induction l generalizing i with
  | nil => simp at h
  | cons x xs ih =>
    cases i with
    | zero => simp [idxOf]
    | succ n =>
      have hget : xs.get ⟨n, Nat.lt_of_succ_lt_succ h⟩ ∈ xs := List.get_mem _ _ _
      have hx : x ≠ xs.get ⟨n, Nat.lt_of_succ_lt_succ h⟩ := by
        intro hcontra
        exact (List.nodup_cons.mp hnd).1 (hcontra ▸ hget)
      simp only [List.get, idxOf, hx, if_false]
      exact congrArg Nat.succ (ih (List.nodup_cons.mp hnd).2 _)

/-! ## Library: dict lemmas -/

theorem dlookup_dictInsert_self {κ α : Type} [DecidableEq κ] (d : Dict κ α) (k : κ) (v : α) :
    dlookup (dictInsert d k v) k = some v := by
  induction d with
  | nil => simp [dictInsert, dlookup]
  | cons e es ih =>
    by_cases he : e.1 = k
    · simp [dictInsert, dlookup, he]
    · simp [dictInsert, dlookup, he, ih]

theorem dlookup_dictInsert_ne {κ α : Type} [DecidableEq κ] (d : Dict κ α) (k : κ) (v : α)
    (k' : κ) (h : k' ≠ k) : dlookup (dictInsert d k v) k' = dlookup d k' := by
  have hkk : ¬ k = k' := fun hc => h hc.symm
  induction d with
  | nil => simp [dictInsert, dlookup, hkk]
  | cons e es ih =>
    by_cases he : e.1 = k
    · have he' : ¬ e.1 = k' := by rw [he]; exact hkk
      simp [dictInsert, dlookup, he, he', hkk]
    · simp only [dictInsert, he, if_false, dlookup, ih]

theorem dlookup_foldl_not_mem {κ α : Type} [DecidableEq κ] (ws : List (κ × α))
    (d : Dict κ α) (k : κ) (h : ∀ v, (k, v) ∉ ws) :
    dlookup (ws.foldl (fun d w => dictInsert d w.1 w.2) d) k = dlookup d k := by
  induction ws generalizing d with
  | nil => rfl
  | cons w rest ih =>
    have hw : w.1 ≠ k := by
      intro hc
      have hmemw : (w.1, w.2) ∈ w :: rest := by simp
      exact h w.2 (hc ▸ hmemw)
    have hrest : ∀ v, (k, v) ∉ rest := fun v hv => h v (List.mem_cons_of_mem w hv)
    calc dlookup ((w :: rest).foldl (fun d w => dictInsert d w.1 w.2) d) k
        = dlookup (dictInsert d w.1 w.2) k := ih _ hrest
      _ = dlookup d k := dlookup_dictInsert_ne _ _ _ _ (fun hc => hw hc.symm)

theorem dlookup_foldl_some {κ α : Type} [DecidableEq κ] (ws : List (κ × α))
    (d : Dict κ α) (k : κ) (v : α) (hmem : (k, v) ∈ ws)
    (huniq : ∀ v', (k, v') ∈ ws → v' = v) :
    dlookup (ws.foldl (fun d w => dictInsert d w.1 w.2) d) k = some v := by
  induction ws generalizing d with
  | nil => cases hmem
  | cons w rest ih =>
    by_cases hk : ∃ v', (k, v') ∈ rest
    · obtain ⟨v', hv'⟩ := hk
      have hv'v : v' = v := huniq v' (List.mem_cons_of_mem w hv')
      exact ih _ (hv'v ▸ hv') (fun v'' hv'' => huniq v'' (List.mem_cons_of_mem w hv''))
    · push_neg at hk
      have hw : w = (k, v) := by
        cases List.mem_cons.mp hmem with
        | inl h' => exact h'.symm
        | inr h' => exact absurd h' (hk v)
      calc dlookup ((w :: rest).foldl (fun d w => dictInsert d w.1 w.2) d) k
          = dlookup (dictInsert d w.1 w.2) k := dlookup_foldl_not_mem rest _ k hk
        _ = some v := by rw [hw]; exact dlookup_dictInsert_self _ _ _

theorem dlookup_buildDict_some {κ α : Type} [DecidableEq κ] (ws : List (κ × α)) (k : κ)
    (v : α) (hmem : (k, v) ∈ ws) (huniq : ∀ v', (k, v') ∈ ws → v' = v) :
    dlookup (buildDict ws) k = some v :=
  dlookup_foldl_some ws [] k v hmem huniq

theorem dlookup_buildDict_none {κ α : Type} [DecidableEq κ] (ws : List (κ × α)) (k : κ)
    (h : ∀ v, (k, v) ∉ ws) : dlookup (buildDict ws) k = none :=
  dlookup_foldl_not_mem ws [] k h

theorem dlookup_foldl_mem {κ α : Type} [DecidableEq κ] (ws : List (κ × α))
    (d : Dict κ α) (k : κ) (v : α)
    (h : dlookup (ws.foldl (fun d w => dictInsert d w.1 w.2) d) k = some v) :
    (k, v) ∈ ws ∨ dlookup d k = some v := by
  induction ws generalizing d with
  | nil => exact Or.inr h
  | cons w rest ih =>
    cases ih _ h with
    | inl hmem => exact Or.inl (List.mem_cons_of_mem w hmem)
    | inr hd =>
      by_cases hw : w.1 = k
      · left
        have : some w.2 = some v := by
          rw [← hd, ← hw]
          exact (dlookup_dictInsert_self d w.1 w.2).symm
        have hv : w.2 = v := Option.some.inj this
        have hweq : w = (k, v) := by rw [← hw, ← hv]
        rw [← hweq]
        exact List.mem_cons_self w rest
      · right
        rw [← hd]
        exact (dlookup_dictInsert_ne d w.1 w.2 k (fun hc => hw hc.symm)).symm

theorem dlookup_buildDict_mem {κ α : Type} [DecidableEq κ] (ws : List (κ × α)) (k : κ)
    (v : α) (h : dlookup (buildDict ws) k = some v) : (k, v) ∈ ws := by
  cases dlookup_foldl_mem ws [] k v h with
  | inl hmem => exact hmem
  | inr hd => cases hd

theorem dlookup_mem {κ α : Type} [DecidableEq κ] {d : Dict κ α} {k : κ} {v : α}
    (h : dlookup d k = some v) : (k, v) ∈ d := by
  induction d with
  | nil => cases h
  | cons e es ih =>
    by_cases he : e.1 = k
    · simp only [dlookup, he, if_true] at h
      have hv : e.2 = v := Option.some.inj h
      have heq : e = (k, v) := by rw [← he, ← hv]
      rw [← heq]
      exact List.mem_cons_self e es
    · simp only [dlookup, he, if_false] at h
      exact List.mem_cons_of_mem e (ih h)

theorem dlookup_eq_none_iff {κ α : Type} [DecidableEq κ] (d : Dict κ α) (k : κ) :
    dlookup d k = none ↔ k ∉ keys d := by
  induction d with
  | nil => simp [dlookup, keys]
  | cons e es ih =>
    by_cases he : e.1 = k
    · simp [dlookup, keys, he]
    · have he' : ¬ k = e.1 := fun hc => he hc.symm
      simp [dlookup, keys, he, he', ih]

theorem mem_of_mem_keys_value {κ α : Type} [DecidableEq κ] {d : Dict κ α} {p : κ × α}
    {q : κ × α} (hnd : (keys d).Nodup) (hp : p ∈ d) (hq : q ∈ d) (hk : p.1 = q.1) :
    p = q := by
  induction d with
  | nil => cases hp
  | cons e es ih =>
    have hnd' : e.1 ∉ keys es ∧ (keys es).Nodup := by
      simpa [keys] using hnd
    cases List.mem_cons.mp hp with
    | inl hp' =>
      cases List.mem_cons.mp hq with
      | inl hq' => rw [hp', hq']
      | inr hq' =>
        exfalso
        apply hnd'.1
        rw [hp'] at hk
        rw [hk]
        exact List.mem_map_of_mem Prod.fst hq'
    | inr hp' =>
      cases List.mem_cons.mp hq with
      | inl hq' =>
        exfalso
        apply hnd'.1
        rw [hq'] at hk
        rw [← hk]
        exact List.mem_map_of_mem Prod.fst hp'
      | inr hq' => exact ih hnd'.2 hp' hq'

/-! ## SlotBuilder (`types_and_slots`) -/

/-- The venue → day → session → slot-spec nesting flattened to one tuple
per slot specification, in iteration order. -/
def flattenSlotSpecs (venues : Venues) : List (String × Date × String × SlotSpec) :=
  venues.flatMap fun vd =>
    vd.2.flatMap fun ds =>
      ds.2.flatMap fun ss =>
        ss.2.map fun spec => (vd.1, ds.1, ss.1, spec)

/-- The record `types_and_slots` emits for one flattened slot
specification (venue, day, session, spec). -/
def buildTypedSlot (x : String × Date × String × SlotSpec) : TypedSlot :=
  { event_type := x.2.2.2.event_type,
    slot :=
      { venue := x.1,
        starts_at := slotStartString x.2.1 x.2.2.2.starts_at,
        duration := x.2.2.2.duration,
        session := dateStr x.2.1 ++ " " ++ x.2.2.1,
        capacity := x.2.2.2.capacity } }

/-- The §8 scenario input: venue `"Hall A"`, day 2017-10-26, session
`"AM"`, one slot `{event_type: "talk", starts_at: 32400, duration: 30,
capacity: 100}`. -/
def demoVenues : Venues :=
  [("Hall A", [(⟨2017, 10, 26⟩, [("AM", [⟨"talk", 32400, 30, 100⟩])])])]

/-- C5: for every slot specification `types_and_slots` emits exactly one
(event-type, Slot) pair, in venue → day → session → slot iteration order,
whose timestamp is midnight of the day plus the `starts_at` offset
formatted as `DD-Mon-YYYY HH:MM` and whose session label is
`"{day} {session}"`; on the §8 scenario input this yields the timestamp
`26-Oct-2017 09:00` and the session label `2017-10-26 AM`. -/
theorem c5_slot_builder :
    (∀ venues : Venues,
      types_and_slots venues = (flattenSlotSpecs venues).map buildTypedSlot) ∧
    types_and_slots demoVenues =
      [{ event_type := "talk",
         slot :=
           { venue := "Hall A", starts_at := "26-Oct-2017 09:00", duration := 30,
             session := "2017-10-26 AM", capacity := 100 } }] := by
  constructor
  · intro venues
    simp [types_and_slots, flattenSlotSpecs, List.map_flatMap, List.map_map,
      Function.comp_def, buildTypedSlot]
  · rfl

/-! ## EventBuilder (`types_and_events`) -/

/-- Replace the owning person of an event specification. -/
def updatePerson (p : String) (event : EventDef) : EventDef := { event with person := p }

/-- C8 counterexample: the claim says the emitted event record carries an
owning person identifier, but two inputs differing only in the person
produce identical output, so the person is not retained. -/
theorem c8_event_builder_counterexample :
    types_and_events [⟨"Dave talk", 30, [], "dave", "talk"⟩] =
      types_and_events [⟨"Dave talk", 30, [], "erin", "talk"⟩] ∧
    (⟨"Dave talk", 30, [], "dave", "talk"⟩ : EventDef) ≠
      ⟨"Dave talk", 30, [], "erin", "talk"⟩ :=
  ⟨rfl, by decide⟩

/-- C8 (amended): `types_and_events` emits one (event-type tag, Event)
pair per input event, in input order, with the Event carrying title,
duration and tags and with demand unset (`None`); the owning person
identifier is not part of the output, as the output is invariant under
rewriting every event's person. -/
theorem c8_event_builder :
    (∀ events_definition : List EventDef,
      types_and_events events_definition = events_definition.map fun event =>
        { event_type := event.event_type,
          event :=
            { name := event.title, duration := event.duration,
              demand := none, tags := event.tags } }) ∧
    (∀ (events_definition : List EventDef) (p : String),
      types_and_events (events_definition.map (updatePerson p)) =
        types_and_events events_definition) := by
  refine ⟨fun _ => rfl, fun events_definition p => ?_⟩
  simp [types_and_events, List.map_map, Function.comp_def, updatePerson]

/-! ## The format → parse round trip -/

theorem digit?_digitChar : ∀ k, k < 10 → digit? (Nat.digitChar k) = some k := by decide

theorem parse2_pad2 (n : Nat) (h : n < 100) (rest : List Char) :
    parse2 (pad2 n ++ rest) = some (n, rest) := by
  have h1 : n / 10 % 10 < 10 := Nat.mod_lt _ (by omega)
  have h2 : n % 10 < 10 := Nat.mod_lt _ (by omega)
  simp only [pad2, List.cons_append, List.nil_append, parse2,
    digit?_digitChar _ h1, digit?_digitChar _ h2]
  have heq : 10 * (n / 10 % 10) + n % 10 = n := by omega
  rw [heq]

theorem parse4_pad4 (n : Nat) (h : n < 10000) (rest : List Char) :
    parse4 (pad4 n ++ rest) = some (n, rest) := by
  have h1 : n / 1000 % 10 < 10 := Nat.mod_lt _ (by omega)
  have h2 : n / 100 % 10 < 10 := Nat.mod_lt _ (by omega)
  have h3 : n / 10 % 10 < 10 := Nat.mod_lt _ (by omega)
  have h4 : n % 10 < 10 := Nat.mod_lt _ (by omega)
  simp only [pad4, List.cons_append, List.nil_append, parse4,
    digit?_digitChar _ h1, digit?_digitChar _ h2, digit?_digitChar _ h3,
    digit?_digitChar _ h4]
  have heq : 1000 * (n / 1000 % 10) + 100 * (n / 100 % 10) + 10 * (n / 10 % 10) + n % 10 = n := by
    omega
  rw [heq]

theorem parse2_pad2_nil (n : Nat) (h : n < 100) : parse2 (pad2 n) = some (n, []) := by
  have hx := parse2_pad2 n h []
  rwa [List.append_nil] at hx

theorem parseMonth_monthAbbrev (m : Nat) (h1 : 1 ≤ m) (h2 : m ≤ 12) (rest : List Char) :
    parseMonth (monthAbbrev m ++ rest) = some (m, rest) := by
  interval_cases m <;> rfl

theorem expectChar_cons (c : Char) (rest : List Char) :
    expectChar c (c :: rest) = some rest := by
  simp [expectChar]

theorem toList_mk (l : List Char) : String.toList ⟨l⟩ = l := rfl

/-- Every month has at most 31 days. -/
theorem daysInMonth_le_31 (y m : Nat) : daysInMonth y m ≤ 31 := by
  unfold daysInMonth
  split
  · split <;> omega
  · split <;> omega

/-- A date Python's `datetime` can hold and `%d-%b-%Y` renders with an
unambiguous four-digit year. -/
def ValidDate (d : Date) : Prop :=
  1000 ≤ d.year ∧ d.year ≤ 9999 ∧ 1 ≤ d.month ∧ d.month ≤ 12 ∧
    1 ≤ d.day ∧ d.day ≤ daysInMonth d.year d.month

instance (d : Date) : Decidable (ValidDate d) := by
  unfold ValidDate
  exact inferInstance

/-- C6: for every slot specification (a valid day plus a within-day
second offset), formatting the absolute start timestamp as
`types_and_slots` does and re-parsing it with `to_datetime` (the
`unavailability` helper, same `%d-%b-%Y %H:%M` pattern) recovers the
original day exactly and the within-day offset truncated to minute
precision. -/
theorem c6_round_trip (day : Date) (s : Nat) (hd : ValidDate day) (hs : s < 86400) :
    to_datetime (slotStartString day s) = some (day, 60 * (s / 60)) := by
  obtain ⟨hy1, hy2, hm1, hm2, hd1, hd2⟩ := hd
  have hdiv : s / 86400 = 0 := Nat.div_eq_of_lt hs
  have hmod : s % 86400 = s := Nat.mod_eq_of_lt hs
  have hstr : slotStartString day s = strftimeFmt (day, s) := by
    simp [slotStartString, combine_add, hdiv, hmod, addDays]
  rw [hstr]
  have hday100 : day.day < 100 := by
    have := daysInMonth_le_31 day.year day.month
    omega
  have hh100 : s / 3600 < 100 := by omega
  have hmi100 : s % 3600 / 60 < 100 := by omega
  have hy10000 : day.year < 10000 := by omega
  simp only [to_datetime, strftimeFmt, toList_mk]
  rw [parse2_pad2 day.day hday100]
  simp only [Option.some_bind]
  rw [expectChar_cons]
  simp only [Option.some_bind]
  rw [parseMonth_monthAbbrev day.month hm1 hm2]
  simp only [Option.some_bind]
  rw [expectChar_cons]
  simp only [Option.some_bind]
  rw [parse4_pad4 day.year hy10000]
  simp only [Option.some_bind]
  rw [expectChar_cons]
  simp only [Option.some_bind]
  rw [parse2_pad2 (s / 3600) hh100]
  simp only [Option.some_bind]
  rw [expectChar_cons]
  simp only [Option.some_bind]
  rw [parse2_pad2_nil (s % 3600 / 60) hmi100]
  simp only [Option.some_bind]
  have hcond : True ∧ 1 ≤ day.year ∧ 1 ≤ day.day ∧
      day.day ≤ daysInMonth day.year day.month ∧ s / 3600 < 24 ∧ s % 3600 / 60 < 60 :=
    ⟨trivial, by omega, hd1, hd2, by omega, by omega⟩
  rw [if_pos hcond]
  have hsod : s / 3600 * 3600 + s % 3600 / 60 * 60 = 60 * (s / 60) := by omega
  rw [hsod]

/-- C6 witness: the round trip at day 2017-10-26 with offset 32400. -/
theorem c6_round_trip_witness :
    (ValidDate ⟨2017, 10, 26⟩ ∧ 32400 < 86400) ∧
    to_datetime (slotStartString ⟨2017, 10, 26⟩ 32400) =
      some (⟨2017, 10, 26⟩, 60 * (32400 / 60)) :=
  ⟨⟨by decide, by decide⟩, c6_round_trip ⟨2017, 10, 26⟩ 32400 (by decide) (by decide)⟩

/-! ## Clash-definition normalisation -/

theorem mem_keys_addMissing_of_mem_keys (cd : Dict String (List String)) (ps : List String)
    (p : String) (h : p ∈ keys cd) : p ∈ keys (addMissing cd ps) := by
  induction ps generalizing cd with
  | nil => exact h
  | cons q qs ih =>
    by_cases hq : q ∈ keys cd
    · simpa [addMissing, hq] using ih cd h
    · have h' : p ∈ keys (cd ++ [(q, [q])]) := by
        simp only [keys, List.map_append]
        exact List.mem_append_left _ h
      simpa [addMissing, hq] using ih _ h'

theorem mem_keys_addMissing_of_mem (cd : Dict String (List String)) (ps : List String)
    (p : String) (h : p ∈ ps) : p ∈ keys (addMissing cd ps) := by
  induction ps generalizing cd with
  | nil => cases h
  | cons q qs ih =>
    by_cases hpq : p = q
    · subst hpq
      by_cases hq : p ∈ keys cd
      · simpa [addMissing, hq] using mem_keys_addMissing_of_mem_keys cd qs p hq
      · have h' : p ∈ keys (cd ++ [(p, [p])]) := by simp [keys]
        simpa [addMissing, hq] using mem_keys_addMissing_of_mem_keys _ qs p h'
    · have h' : p ∈ qs := by
        cases List.mem_cons.mp h with
        | inl hc => exact absurd hc hpq
        | inr hc => exact hc
      simp only [addMissing]
      exact ih _ h'

theorem addSelf_self_mem (cd : Dict String (List String)) (p : String) (h : p ∈ keys cd) :
    ∃ l, dlookup (addSelf cd).1 p = some l ∧ p ∈ l := by
  induction cd with
  | nil => simp [keys] at h
  | cons pc rest ih =>
    obtain ⟨q, m⟩ := pc
    by_cases hpc : q = p
    · subst hpc
      by_cases hself : q ∈ m
      · exact ⟨m, by simp [addSelf, hself, dlookup], hself⟩
      · exact ⟨m ++ [q], by simp [addSelf, hself, dlookup], by simp⟩
    · have h' : p ∈ keys rest := by
        simp only [keys, List.map_cons, List.mem_cons] at h
        cases h with
        | inl hc => exact absurd hc.symm hpc
        | inr hc => exact hc
      obtain ⟨l, hl, hpl⟩ := ih h'
      refine ⟨l, ?_, hpl⟩
      by_cases hself : q ∈ m <;> simp [addSelf, hself, dlookup, hpc, hl]

/-- C4: after the normalisation step of `clashes`, every person who owns
at least one event appears in their own clashing-people list. -/
theorem c4_reflexive (events_definition : List EventDef)
    (clashes_definition : Dict String (List String)) (p : String)
    (h : ∃ e ∈ events_definition, e.person = p) :
    ∃ l, dlookup (clashes events_definition clashes_definition).1 p = some l ∧ p ∈ l := by
  obtain ⟨e, he, hep⟩ := h
  have hmem : p ∈ events_definition.map fun event => event.person :=
    hep ▸ List.mem_map_of_mem (fun event => event.person) he
  have hk : p ∈ keys (addMissing clashes_definition
      (events_definition.map fun event => event.person)) :=
    mem_keys_addMissing_of_mem _ _ _ hmem
  simpa [clashes] using addSelf_self_mem _ p hk

/-- C4 witness: `dave` owns an event, so after normalisation `dave` is in
his own clashing-people list. -/
theorem c4_reflexive_witness :
    (∃ e ∈ [(⟨"Dave talk", 30, [], "dave", "talk"⟩ : EventDef)], e.person = "dave") ∧
    ∃ l, dlookup (clashes [⟨"Dave talk", 30, [], "dave", "talk"⟩] []).1 "dave" = some l ∧
      "dave" ∈ l :=
  ⟨⟨_, List.mem_singleton.mpr rfl, rfl⟩,
    c4_reflexive _ [] "dave" ⟨_, List.mem_singleton.mpr rfl, rfl⟩⟩

/-! ## The injected-self-clash count -/

theorem addSelf_count (cd : Dict String (List String)) :
    (addSelf cd).2 = (cd.filter fun pc => decide (pc.1 ∉ pc.2)).length := by
  induction cd with
  | nil => rfl
  | cons pc rest ih =>
    by_cases hself : pc.1 ∈ pc.2 <;> simp [addSelf, List.filter, hself, ih]

theorem addMissing_append (cd : Dict String (List String)) (ps : List String) :
    ∃ ext, addMissing cd ps = cd ++ ext ∧ ∀ pc ∈ ext, pc.2 = [pc.1] := by
  induction ps generalizing cd with
  | nil => exact ⟨[], by simp [addMissing], by simp⟩
  | cons q qs ih =>
    by_cases hq : q ∈ keys cd
    · obtain ⟨ext, h1, h2⟩ := ih cd
      exact ⟨ext, by simpa [addMissing, hq] using h1, h2⟩
    · obtain ⟨ext, h1, h2⟩ := ih (cd ++ [(q, [q])])
      refine ⟨(q, [q]) :: ext, ?_, ?_⟩
      · simp only [addMissing, hq, if_false] at h1 ⊢
        rw [h1, List.append_assoc, List.singleton_append]
      · intro pc hpc
        cases List.mem_cons.mp hpc with
        | inl hc => rw [hc]
        | inr hc => exact h2 pc hc

theorem addSelf_append (a b : Dict String (List String)) :
    addSelf (a ++ b) = ((addSelf a).1 ++ (addSelf b).1, (addSelf a).2 + (addSelf b).2) := by
  induction a with
  | nil => simp [addSelf]
  | cons pc rest ih =>
    by_cases hself : pc.1 ∈ pc.2
    · simp [addSelf, ih, hself, Prod.ext_iff]
    · simp [addSelf, ih, hself, Prod.ext_iff]
      omega

/-- C1 counterexample: the clash definitions omit `dave`, who owns one
event; normalisation injects the entry `dave ↦ [dave]` and dave's event
gets an empty clash list, but the returned injected-self-clash count is
0, not 1. -/
theorem c1_injected_count_counterexample :
    (clashes [⟨"Dave talk", 30, [], "dave", "talk"⟩] []).1 = [("dave", ["dave"])] ∧
    (clashes [⟨"Dave talk", 30, [], "dave", "talk"⟩] []).2.1 = [(0, [])] ∧
    (clashes [⟨"Dave talk", 30, [], "dave", "talk"⟩] []).2.2 = 0 :=
  ⟨rfl, rfl, rfl⟩

/-- C1 (amended): the count returned by `clashes` equals the number of
caller-supplied entries whose list omits the person themself (the second
normalisation loop); entries freshly inserted for wholly-omitted persons
are created as `person ↦ [person]` and never counted. -/
theorem c1_injected_count (events_definition : List EventDef)
    (clashes_definition : Dict String (List String)) :
    (clashes events_definition clashes_definition).2.2 =
      (clashes_definition.filter fun pc => decide (pc.1 ∉ pc.2)).length := by
  obtain ⟨ext, h1, h2⟩ := addMissing_append clashes_definition
    (events_definition.map fun event => event.person)
  have hext : (addSelf ext).2 = 0 := by
    rw [addSelf_count]
    have hfil : ext.filter (fun pc => decide (pc.1 ∉ pc.2)) = [] := by
      rw [List.filter_eq_nil_iff]
      intro pc hpc
      simp [h2 pc hpc]
    rw [hfil]
    rfl
  simp only [clashes, h1, addSelf_append]
  rw [hext, addSelf_count]
  omega

/-! ## Mutation of the caller's clash definitions -/

theorem addMissing_eq_self (cd : Dict String (List String)) (ps : List String)
    (h : ∀ p ∈ ps, p ∈ keys cd) : addMissing cd ps = cd := by
  induction ps with
  | nil => rfl
  | cons q qs ih =>
    have hq : q ∈ keys cd := h q (List.mem_cons_self q qs)
    simpa [addMissing, hq] using ih fun p hp => h p (List.mem_cons_of_mem q hp)

theorem addSelf_eq_self (cd : Dict String (List String))
    (h : ∀ pc ∈ cd, pc.1 ∈ pc.2) : (addSelf cd).1 = cd := by
  induction cd with
  | nil => rfl
  | cons pc rest ih =>
    have hself : pc.1 ∈ pc.2 := h pc (List.mem_cons_self pc rest)
    simpa [addSelf, hself] using ih fun x hx => h x (List.mem_cons_of_mem pc hx)

theorem addSelf_fst_length (cd : Dict String (List String)) :
    (addSelf cd).1.length = cd.length := by
  induction cd with
  | nil => rfl
  | cons pc rest ih =>
    by_cases hself : pc.1 ∈ pc.2 <;> simp [addSelf, hself, ih]

theorem keys_addSelf (cd : Dict String (List String)) : keys (addSelf cd).1 = keys cd := by
  induction cd with
  | nil => rfl
  | cons pc rest ih =>
    by_cases hself : pc.1 ∈ pc.2 <;> simp [addSelf, keys, hself] <;>
      simpa [keys] using ih

theorem addSelf_fst_eq_imp (cd : Dict String (List String))
    (h : (addSelf cd).1 = cd) : ∀ pc ∈ cd, pc.1 ∈ pc.2 := by
  induction cd with
  | nil => simp
  | cons pc rest ih =>
    by_cases hself : pc.1 ∈ pc.2
    · simp only [addSelf, hself, if_true] at h
      have htail : (addSelf rest).1 = rest := (List.cons.injEq _ _ _ _ ▸ h).2
      intro x hx
      cases List.mem_cons.mp hx with
      | inl hc => rw [hc]; exact hself
      | inr hc => exact ih htail x hc
    · exfalso
      simp only [addSelf, hself, if_false] at h
      have hhead : (pc.1, pc.2 ++ [pc.1]) = pc := (List.cons.injEq _ _ _ _ ▸ h).1
      have : (pc.2 ++ [pc.1]).length = pc.2.length := by
        rw [show pc.2 ++ [pc.1] = pc.2 from congrArg Prod.snd hhead]
      simp at this

/-- C9 counterexample: the claim says `clashes` leaves the
caller-supplied clash definitions unchanged, but on an empty definitions
dict with one dave-owned event the caller's dict ends up with an
injected entry. -/
theorem c9_no_mutation_counterexample :
    (clashes [⟨"Dave talk", 30, [], "dave", "talk"⟩] []).1 ≠ ([] : Dict String (List String)) := by
  decide

/-- C9 (amended): `clashes` mutates the caller's clash definitions in
place; the post-state equals the input exactly when no normalisation was
needed, i.e. when every event owner already has an entry and every entry
already lists its own person.  A pure reimplementation must therefore
copy the mapping first. -/
theorem c9_mutation (events_definition : List EventDef)
    (clashes_definition : Dict String (List String)) :
    (clashes events_definition clashes_definition).1 = clashes_definition ↔
      ((∀ e ∈ events_definition, e.person ∈ keys clashes_definition) ∧
        ∀ pc ∈ clashes_definition, pc.1 ∈ pc.2) := by
  constructor
  · intro h
    simp only [clashes] at h
    constructor
    · intro e he
      have h1 : e.person ∈ keys (addMissing clashes_definition
          (events_definition.map fun event => event.person)) :=
        mem_keys_addMissing_of_mem _ _ _ (List.mem_map_of_mem (fun event => event.person) he)
      have h2 := keys_addSelf (addMissing clashes_definition
        (events_definition.map fun event => event.person))
      rw [h] at h2
      rw [h2]
      exact h1
    · obtain ⟨ext, he1, he2⟩ := addMissing_append clashes_definition
        (events_definition.map fun event => event.person)
      rw [he1, addSelf_append] at h
      have hlen : (addSelf clashes_definition).1.length + (addSelf ext).1.length =
          clashes_definition.length := by
        have := congrArg List.length h
        simpa using this
      have hext : ext = [] := by
        have l1 := addSelf_fst_length clashes_definition
        have l2 := addSelf_fst_length ext
        have : ext.length = 0 := by omega
        exact List.length_eq_zero.mp this
      rw [hext] at h
      simp only [addSelf, List.append_nil] at h
      exact addSelf_fst_eq_imp _ h
  · intro ⟨h1, h2⟩
    have hmiss : addMissing clashes_definition
        (events_definition.map fun event => event.person) = clashes_definition := by
      apply addMissing_eq_self
      intro p hp
      obtain ⟨e, he, hep⟩ := List.mem_map.mp hp
      exact hep ▸ h1 e he
    simp only [clashes, hmiss]
    exact addSelf_eq_self _ h2

/-! ## Unsuitability -/

theorem idxOf_inj_on_mem {α : Type} [DecidableEq α] {l : List α} {a b : α}
    (ha : a ∈ l) (hb : b ∈ l) (h : idxOf l a = idxOf l b) : a = b := by
  have h1 := get_idxOf ha
  have h2 := get_idxOf hb
  have hfin : (⟨idxOf l a, idxOf_lt_length ha⟩ : Fin l.length) =
      ⟨idxOf l b, idxOf_lt_length hb⟩ := Fin.ext h
  rw [← h1, ← h2, hfin]

theorem mem_unsuit_list (ts : List TypedSlot) (et : String) (j : Nat) :
    (j ∈ (ts.enum.filter fun p => p.2.event_type != et).map Prod.fst) ↔
      ∃ hj : j < ts.length, (ts.get ⟨j, hj⟩).event_type ≠ et := by
  simp only [List.mem_map, List.mem_filter]
  constructor
  · rintro ⟨p, ⟨hpe, hpt⟩, hpj⟩
    have hget : ts[p.1]? = some p.2 := List.mem_enum_iff_getElem?.mp hpe
    obtain ⟨hlt, hgeteq⟩ := List.getElem?_eq_some.mp hget
    subst hpj
    refine ⟨hlt, ?_⟩
    have hgg : ts.get ⟨p.1, hlt⟩ = p.2 := by simpa [List.get_eq_getElem] using hgeteq
    rw [hgg]
    exact bne_iff_ne.mp hpt
  · rintro ⟨hj, hne⟩
    refine ⟨(j, ts.get ⟨j, hj⟩), ⟨?_, bne_iff_ne.mpr hne⟩, rfl⟩
    apply List.mem_enum_iff_getElem?.mpr
    simp [List.get_eq_getElem, List.getElem?_eq_getElem hj]

/-- C7: for every event, the unsuitability entry at that event's index
contains exactly the indices of slots whose event-type tag differs from
the event's tag, and never the index of a slot whose tag matches. -/
theorem c7_unsuitability (ts : List TypedSlot) (events_definition : List EventDef)
    (e : EventDef) (he : e ∈ events_definition) :
    ∃ l, dlookup (unsuitability ts events_definition) (idxOf events_definition e) = some l ∧
      ∀ j, j ∈ l ↔ ∃ hj : j < ts.length, (ts.get ⟨j, hj⟩).event_type ≠ e.event_type := by
  have hsome : dlookup (unsuitability ts events_definition) (idxOf events_definition e) =
      some ((ts.enum.filter fun p => p.2.event_type != e.event_type).map Prod.fst) := by
    unfold unsuitability
    apply dlookup_buildDict_some
    · exact List.mem_map_of_mem _ he
    · intro v' hv'
      obtain ⟨e', he', heq⟩ := List.mem_map.mp hv'
      have hk : idxOf events_definition e' = idxOf events_definition e :=
        congrArg Prod.fst heq
      have hv : (ts.enum.filter fun p => p.2.event_type != e'.event_type).map Prod.fst = v' :=
        congrArg Prod.snd heq
      have hee : e' = e := idxOf_inj_on_mem he' he hk
      rw [← hv, hee]
  exact ⟨_, hsome, fun j => mem_unsuit_list ts e.event_type j⟩

/-- The alice event used by several witnesses. -/
def aliceEv : EventDef := ⟨"Alice talk", 30, [], "alice", "talk"⟩

/-- C7 witness: the alice event among the demo slots. -/
theorem c7_unsuitability_witness :
    (aliceEv ∈ [aliceEv]) ∧
    ∃ l, dlookup (unsuitability (types_and_slots demoVenues) [aliceEv])
        (idxOf [aliceEv] aliceEv) = some l ∧
      ∀ j, j ∈ l ↔ ∃ hj : j < (types_and_slots demoVenues).length,
        ((types_and_slots demoVenues).get ⟨j, hj⟩).event_type ≠ aliceEv.event_type :=
  ⟨List.mem_singleton.mpr rfl,
    c7_unsuitability (types_and_slots demoVenues) [aliceEv] aliceEv
      (List.mem_singleton.mpr rfl)⟩

/-! ## Unavailability -/

theorem mem_unavail_list (slots : List Slot) (periods : List Period) (j : Nat)
    (hslots : slots.Nodup) :
    (j ∈ periods.flatMap fun period =>
        (slots.filter fun slot => slotCond period slot).map fun slot => idxOf slots slot) ↔
      ∃ hj : j < slots.length, ∃ period ∈ periods,
        slotCond period (slots.get ⟨j, hj⟩) = true := by
  simp only [List.mem_flatMap, List.mem_map, List.mem_filter]
  constructor
  · rintro ⟨period, hper, slot, ⟨hmem, hcond⟩, hidx⟩
    subst hidx
    refine ⟨idxOf_lt_length hmem, period, hper, ?_⟩
    rw [get_idxOf hmem]
    exact hcond
  · rintro ⟨hj, period, hper, hcond⟩
    refine ⟨period, hper, slots.get ⟨j, hj⟩, ⟨List.get_mem _ _ _, hcond⟩, ?_⟩
    exact idxOf_get_of_nodup hslots hj

/-- C2 counterexample: with two structurally identical slots both lying
inside alice's declared period, the entry for alice's event lists slot
index 0 twice and never index 1, although slot 1 satisfies the interval
containment — `slots.index` always returns the first occurrence, so the
claimed "exactly the indices of qualifying slots" fails. -/
theorem c2_unavailability_counterexample :
    dlookup (unavailability [⟨"Alice talk", 30, [], "alice", "talk"⟩]
        [⟨"v", "26-Oct-2017 09:00", 30, "s", 10⟩, ⟨"v", "26-Oct-2017 09:00", 30, "s", 10⟩]
        [("alice", [⟨(⟨2017, 10, 26⟩, 0), (⟨2017, 10, 26⟩, 86340)⟩])]) 0 = some [0, 0] ∧
    slotCond ⟨(⟨2017, 10, 26⟩, 0), (⟨2017, 10, 26⟩, 86340)⟩
      ⟨"v", "26-Oct-2017 09:00", 30, "s", 10⟩ = true ∧
    (1 : Nat) ∉ ([0, 0] : List Nat) := by
  refine ⟨by decide, by decide, by decide⟩

/-- C2 (amended): assuming the slot list has no structural duplicates,
for every event whose owner has declared periods the map entry at the
event's index contains exactly the indices of slots whose interval
`[start, start + duration]` lies inside some declared period (both
bounds inclusive, accumulated across periods); events whose owner is
absent from the unavailability mapping get no entry. -/
theorem c2_unavailability (events_definition : List EventDef) (slots : List Slot)
    (unavailability_definition : Dict String (List Period))
    (hud : (keys unavailability_definition).Nodup) (hslots : slots.Nodup) :
    (∀ e ∈ events_definition, ∀ periods,
      dlookup unavailability_definition e.person = some periods →
      ∃ l, dlookup (unavailability events_definition slots unavailability_definition)
          (idxOf events_definition e) = some l ∧
        ∀ j, j ∈ l ↔ ∃ hj : j < slots.length, ∃ period ∈ periods,
          slotCond period (slots.get ⟨j, hj⟩) = true) ∧
    (∀ e ∈ events_definition,
      dlookup unavailability_definition e.person = none →
      dlookup (unavailability events_definition slots unavailability_definition)
        (idxOf events_definition e) = none) := by
  constructor
  · intro e he periods hlk
    have hent : (e.person, periods) ∈ unavailability_definition := dlookup_mem hlk
    have hsome : dlookup (unavailability events_definition slots unavailability_definition)
        (idxOf events_definition e) =
        some (periods.flatMap fun period =>
          (slots.filter fun slot => slotCond period slot).map fun slot => idxOf slots slot) := by
      unfold unavailability
      apply dlookup_buildDict_some
      · apply List.mem_flatMap.mpr
        refine ⟨(e.person, periods), hent, ?_⟩
        apply List.mem_map.mpr
        refine ⟨e, ?_, rfl⟩
        exact List.mem_filter.mpr ⟨he, by simp⟩
      · intro v' hv'
        obtain ⟨pp, hpp, hmap⟩ := List.mem_flatMap.mp hv'
        obtain ⟨e', hef, heq⟩ := List.mem_map.mp hmap
        have he'mem : e' ∈ events_definition := (List.mem_filter.mp hef).1
        have he'per : e'.person = pp.1 := by
          have := (List.mem_filter.mp hef).2
          simpa [beq_iff_eq] using this
        have hk : idxOf events_definition e' = idxOf events_definition e :=
          congrArg Prod.fst heq
        have hee : e' = e := idxOf_inj_on_mem he'mem he hk
        have hpp1 : pp.1 = e.person := by rw [← hee, ← he'per]
        have hppeq : pp = (e.person, periods) :=
          mem_of_mem_keys_value hud hpp hent (by rw [hpp1])
        have hv : (pp.2.flatMap fun period =>
            (slots.filter fun slot => slotCond period slot).map fun slot =>
              idxOf slots slot) = v' := congrArg Prod.snd heq
        rw [← hv, hppeq]
    exact ⟨_, hsome, fun j => mem_unavail_list slots periods j hslots⟩
  · intro e he hnone
    unfold unavailability
    apply dlookup_buildDict_none
    intro v hv
    obtain ⟨pp, hpp, hmap⟩ := List.mem_flatMap.mp hv
    obtain ⟨e', hef, heq⟩ := List.mem_map.mp hmap
    have he'mem : e' ∈ events_definition := (List.mem_filter.mp hef).1
    have he'per : e'.person = pp.1 := by
      have := (List.mem_filter.mp hef).2
      simpa [beq_iff_eq] using this
    have hk : idxOf events_definition e' = idxOf events_definition e :=
      congrArg Prod.fst heq
    have hee : e' = e := idxOf_inj_on_mem he'mem he hk
    have hkey : e.person ∈ keys unavailability_definition := by
      rw [← hee, he'per]
      exact List.mem_map_of_mem Prod.fst hpp
    exact (dlookup_eq_none_iff _ _).mp hnone hkey

/-- One slot fully inside alice's period and one extending past it. -/
def slotA : Slot := ⟨"v", "26-Oct-2017 09:00", 30, "2017-10-26 AM", 10⟩

/-- The 09:45 slot whose interval ends past alice's period. -/
def slotB : Slot := ⟨"v", "26-Oct-2017 09:45", 30, "2017-10-26 AM", 10⟩

/-- Alice's declared period 09:00–10:00 on 2017-10-26. -/
def alicePeriod : Period := ⟨(⟨2017, 10, 26⟩, 32400), (⟨2017, 10, 26⟩, 36000)⟩

/-- C2 witness: the §8 alice scenario (periods declared and Nodup slots). -/
theorem c2_unavailability_witness :
    ((keys [("alice", [alicePeriod])]).Nodup ∧ ([slotA, slotB] : List Slot).Nodup) ∧
    ((∀ e ∈ [aliceEv], ∀ periods,
      dlookup [("alice", [alicePeriod])] e.person = some periods →
      ∃ l, dlookup (unavailability [aliceEv] [slotA, slotB] [("alice", [alicePeriod])])
          (idxOf [aliceEv] e) = some l ∧
        ∀ j, j ∈ l ↔ ∃ hj : j < ([slotA, slotB] : List Slot).length, ∃ period ∈ periods,
          slotCond period (([slotA, slotB] : List Slot).get ⟨j, hj⟩) = true) ∧
    (∀ e ∈ [aliceEv],
      dlookup [("alice", [alicePeriod])] e.person = none →
      dlookup (unavailability [aliceEv] [slotA, slotB] [("alice", [alicePeriod])])
        (idxOf [aliceEv] e) = none)) :=
  ⟨⟨by decide, by decide⟩,
    c2_unavailability [aliceEv] [slotA, slotB] [("alice", [alicePeriod])]
      (by decide) (by decide)⟩

/-! ## Clash lists -/

theorem keys_addMissing_nodup (cd : Dict String (List String)) (ps : List String)
    (h : (keys cd).Nodup) : (keys (addMissing cd ps)).Nodup := by
  induction ps generalizing cd with
  | nil => exact h
  | cons q qs ih =>
    by_cases hq : q ∈ keys cd
    · simpa [addMissing, hq] using ih cd h
    · have h' : (keys (cd ++ [(q, [q])])).Nodup := by
        simp only [keys, List.map_append, List.map_cons, List.map_nil]
        rw [List.nodup_append]
        refine ⟨h, List.nodup_singleton q, ?_⟩
        intro a ha hma
        rw [List.mem_singleton.mp hma] at ha
        exact hq ha
      simpa [addMissing, hq] using ih _ h'

theorem mem_clash_list (events : List EventDef) (cl : List String) (e : EventDef) (k : Nat) :
    (k ∈ cl.flatMap fun c => (events.filter fun t =>
        t.person == c && idxOf events e != idxOf events t).map fun t => idxOf events t) ↔
      ((∃ t ∈ events, t.person ∈ cl ∧ idxOf events t = k) ∧ k ≠ idxOf events e) := by
  simp only [List.mem_flatMap, List.mem_map, List.mem_filter, Bool.and_eq_true,
    beq_iff_eq, bne_iff_ne]
  constructor
  · rintro ⟨c, hc, t, ⟨htmem, htc, hne⟩, hk⟩
    subst hk
    exact ⟨⟨t, htmem, htc ▸ hc, rfl⟩, fun hcontra => hne hcontra.symm⟩
  · rintro ⟨⟨t, htmem, htc, hk⟩, hke⟩
    subst hk
    exact ⟨t.person, htc, t, ⟨htmem, rfl, fun hcontra => hke hcontra.symm⟩, rfl⟩

/-- The person-A event of the asymmetry scenario. -/
def eAEv : EventDef := ⟨"A talk", 30, [], "A", "talk"⟩

/-- The person-B event of the asymmetry scenario. -/
def eBEv : EventDef := ⟨"B talk", 30, [], "B", "talk"⟩

/-- C3: the derived clash list of an event owned by person P contains
exactly the indices of the other events (never its own index) owned by
the people in P's normalised clashing-people list; and on the concrete
input where A lists B but B's own (injected) entry does not list A, A's
event avoids B's event while B's clash list is empty — the relation is
not symmetrised. -/
theorem c3_clash_lists :
    (∀ (events_definition : List EventDef) (clashes_definition : Dict String (List String)),
      (keys clashes_definition).Nodup →
      ∀ e ∈ events_definition, ∀ cl,
        dlookup (clashes events_definition clashes_definition).1 e.person = some cl →
        ∃ l, dlookup (clashes events_definition clashes_definition).2.1
            (idxOf events_definition e) = some l ∧
          ∀ k, k ∈ l ↔ ((∃ t ∈ events_definition, t.person ∈ cl ∧
            idxOf events_definition t = k) ∧ k ≠ idxOf events_definition e)) ∧
    (dlookup (clashes [eAEv, eBEv] [("A", ["B"])]).2.1 0 = some [1] ∧
      dlookup (clashes [eAEv, eBEv] [("A", ["B"])]).2.1 1 = some []) := by
  constructor
  · intro events_definition clashes_definition hnd e he cl hcl
    simp only [clashes] at hcl ⊢
    have hnd2 : (keys (addSelf (addMissing clashes_definition
        (events_definition.map fun event => event.person))).1).Nodup := by
      rw [keys_addSelf]
      exact keys_addMissing_nodup _ _ hnd
    have hent : (e.person, cl) ∈ (addSelf (addMissing clashes_definition
        (events_definition.map fun event => event.person))).1 := dlookup_mem hcl
    have hsome : dlookup (buildDict ((addSelf (addMissing clashes_definition
        (events_definition.map fun event => event.person))).1.flatMap fun pc =>
          (events_definition.filter fun event => event.person == pc.1).map fun event =>
            (idxOf events_definition event,
              pc.2.flatMap fun c =>
                (events_definition.filter fun t =>
                  t.person == c && idxOf events_definition event != idxOf events_definition t).map
                  fun t => idxOf events_definition t)))
        (idxOf events_definition e) =
        some (cl.flatMap fun c =>
          (events_definition.filter fun t =>
            t.person == c && idxOf events_definition e != idxOf events_definition t).map
            fun t => idxOf events_definition t) := by
      apply dlookup_buildDict_some
      · apply List.mem_flatMap.mpr
        refine ⟨(e.person, cl), hent, ?_⟩
        apply List.mem_map.mpr
        refine ⟨e, ?_, rfl⟩
        exact List.mem_filter.mpr ⟨he, by simp⟩
      · intro v' hv'
        obtain ⟨pc, hpc, hmap⟩ := List.mem_flatMap.mp hv'
        obtain ⟨e', hef, heq⟩ := List.mem_map.mp hmap
        rw [Prod.mk.injEq] at heq
        obtain ⟨hk, hv⟩ := heq
        have he'mem : e' ∈ events_definition := (List.mem_filter.mp hef).1
        have he'per : e'.person = pc.1 := by
          have := (List.mem_filter.mp hef).2
          simpa [beq_iff_eq] using this
        have hee : e' = e := idxOf_inj_on_mem he'mem he hk
        have hpc1 : pc.1 = e.person := by rw [← hee, ← he'per]
        have hpceq : pc = (e.person, cl) :=
          mem_of_mem_keys_value hnd2 hpc hent (by rw [hpc1])
        rw [← hv, hpceq, hee]
    exact ⟨_, hsome, fun k => mem_clash_list events_definition cl e k⟩
  · exact ⟨by decide, by decide⟩

/-- C3 witness: person A (who lists B, self-clash appended) with their
own event in the two-event scenario. -/
theorem c3_clash_lists_witness :
    ((keys ([("A", ["B"])] : Dict String (List String))).Nodup ∧
      eAEv ∈ [eAEv, eBEv] ∧
      dlookup (clashes [eAEv, eBEv] [("A", ["B"])]).1 eAEv.person = some ["B", "A"]) ∧
    (∃ l, dlookup (clashes [eAEv, eBEv] [("A", ["B"])]).2.1
        (idxOf [eAEv, eBEv] eAEv) = some l ∧
      ∀ k, k ∈ l ↔ ((∃ t ∈ [eAEv, eBEv], t.person ∈ ["B", "A"] ∧
        idxOf [eAEv, eBEv] t = k) ∧ k ≠ idxOf [eAEv, eBEv] eAEv)) :=
  ⟨⟨by decide, by decide, by decide⟩,
    c3_clash_lists.1 [eAEv, eBEv] [("A", ["B"])] (by decide) eAEv (by decide)
      ["B", "A"] (by decide)⟩

/-! ## Duplicate event specifications -/

theorem idxOf_ne_later_dup (events : List EventDef) (i j : Nat) (hj : j < events.length)
    (hij : i < j) (heq : events.get ⟨i, Nat.lt_trans hij hj⟩ = events.get ⟨j, hj⟩)
    (x : EventDef) (hx : x ∈ events) : idxOf events x ≠ j := by
  intro hcontra
  have hx' : events.get ⟨j, hj⟩ = x := by
    have hg := get_idxOf hx
    have hfin : (⟨idxOf events x, idxOf_lt_length hx⟩ : Fin events.length) = ⟨j, hj⟩ :=
      Fin.ext hcontra
    rw [hfin] at hg
    exact hg
  have hxi : events.get ⟨i, Nat.lt_trans hij hj⟩ = x := heq.trans hx'
  have hle : idxOf events x ≤ i := by
    have hx2 := idxOf_le_of_get (l := events) (i := i) (Nat.lt_trans hij hj)
    rwa [hxi] at hx2
  omega

theorem unavail_write_key (events_definition : List EventDef) (slots : List Slot)
    (ud : Dict String (List Period)) (k : Nat) (v : List Nat)
    (h : (k, v) ∈ ud.flatMap fun pp =>
      (events_definition.filter fun event => event.person == pp.1).map fun event =>
        (idxOf events_definition event,
          pp.2.flatMap fun period =>
            (slots.filter fun slot => slotCond period slot).map fun slot =>
              idxOf slots slot)) :
    ∃ e ∈ events_definition, idxOf events_definition e = k := by
  obtain ⟨pp, hpp, hmap⟩ := List.mem_flatMap.mp h
  obtain ⟨e, hef, heq⟩ := List.mem_map.mp hmap
  exact ⟨e, (List.mem_filter.mp hef).1, congrArg Prod.fst heq⟩

theorem clash_write_key (events_definition : List EventDef)
    (cd2 : Dict String (List String)) (k : Nat) (v : List Nat)
    (h : (k, v) ∈ cd2.flatMap fun pc =>
      (events_definition.filter fun event => event.person == pc.1).map fun event =>
        (idxOf events_definition event,
          pc.2.flatMap fun c =>
            (events_definition.filter fun t =>
              t.person == c &&
                idxOf events_definition event != idxOf events_definition t).map
              fun t => idxOf events_definition t)) :
    (∃ e ∈ events_definition, idxOf events_definition e = k) ∧
      ∀ x ∈ v, ∃ t ∈ events_definition, idxOf events_definition t = x := by
  obtain ⟨pc, hpc, hmap⟩ := List.mem_flatMap.mp h
  obtain ⟨e, hef, heq⟩ := List.mem_map.mp hmap
  rw [Prod.mk.injEq] at heq
  obtain ⟨hkk, hvv⟩ := heq
  refine ⟨⟨e, (List.mem_filter.mp hef).1, hkk⟩, ?_⟩
  intro x hx
  rw [← hvv] at hx
  obtain ⟨c, hc, hmapx⟩ := List.mem_flatMap.mp hx
  obtain ⟨t, htf, hidx⟩ := List.mem_map.mp hmapx
  exact ⟨t, (List.mem_filter.mp htf).1, hidx⟩

theorem unsuit_write_key (ts : List TypedSlot) (events_definition : List EventDef)
    (k : Nat) (v : List Nat)
    (h : (k, v) ∈ events_definition.map fun event =>
      (idxOf events_definition event,
        (ts.enum.filter fun p => p.2.event_type != event.event_type).map Prod.fst)) :
    ∃ e ∈ events_definition, idxOf events_definition e = k := by
  obtain ⟨e, he, heq⟩ := List.mem_map.mp h
  exact ⟨e, he, congrArg Prod.fst heq⟩

/-- C10: when the event list has two structurally identical entries at
positions i < j (i being the first occurrence), every constraint map
keys the later occurrence to i by value lookup, index j never appears as
a key of the unavailability, clashes or unsuitability map, and no clash
list ever contains j. -/
theorem c10_duplicate_events (events_definition : List EventDef) (slots : List Slot)
    (ts : List TypedSlot) (unavailability_definition : Dict String (List Period))
    (clashes_definition : Dict String (List String)) (i j : Nat)
    (hj : j < events_definition.length) (hij : i < j)
    (heq : events_definition.get ⟨i, Nat.lt_trans hij hj⟩ = events_definition.get ⟨j, hj⟩)
    (hfirst : idxOf events_definition
      (events_definition.get ⟨i, Nat.lt_trans hij hj⟩) = i) :
    idxOf events_definition (events_definition.get ⟨j, hj⟩) = i ∧
    dlookup (unavailability events_definition slots unavailability_definition) j = none ∧
    dlookup (clashes events_definition clashes_definition).2.1 j = none ∧
    dlookup (unsuitability ts events_definition) j = none ∧
    ∀ k l, dlookup (clashes events_definition clashes_definition).2.1 k = some l →
      j ∉ l := by
  refine ⟨by rw [← heq]; exact hfirst, ?_, ?_, ?_, ?_⟩
  · unfold unavailability
    apply dlookup_buildDict_none
    intro v hv
    obtain ⟨e, he, hk⟩ := unavail_write_key _ _ _ _ _ hv
    exact idxOf_ne_later_dup events_definition i j hj hij heq e he hk
  · simp only [clashes]
    apply dlookup_buildDict_none
    intro v hv
    obtain ⟨⟨e, he, hk⟩, _⟩ := clash_write_key _ _ _ _ hv
    exact idxOf_ne_later_dup events_definition i j hj hij heq e he hk
  · unfold unsuitability
    apply dlookup_buildDict_none
    intro v hv
    obtain ⟨e, he, hk⟩ := unsuit_write_key _ _ _ _ hv
    exact idxOf_ne_later_dup events_definition i j hj hij heq e he hk
  · intro k l hl hjl
    simp only [clashes] at hl
    have hmem := dlookup_buildDict_mem _ _ _ hl
    obtain ⟨_, hval⟩ := clash_write_key _ _ _ _ hmem
    obtain ⟨t, ht, hidx⟩ := hval j hjl
    exact idxOf_ne_later_dup events_definition i j hj hij heq t ht hidx

/-- C10 witness: a list with the same event twice, against empty
constraint inputs. -/
theorem c10_duplicate_events_witness :
    ((1 : Nat) < ([eAEv, eAEv] : List EventDef).length ∧ (0 : Nat) < 1 ∧
      ([eAEv, eAEv] : List EventDef).get ⟨0, by decide⟩ =
        ([eAEv, eAEv] : List EventDef).get ⟨1, by decide⟩ ∧
      idxOf [eAEv, eAEv] (([eAEv, eAEv] : List EventDef).get ⟨0, by decide⟩) = 0) ∧
    (idxOf [eAEv, eAEv] (([eAEv, eAEv] : List EventDef).get ⟨1, by decide⟩) = 0 ∧
      dlookup (unavailability [eAEv, eAEv] [] []) 1 = none ∧
      dlookup (clashes [eAEv, eAEv] []).2.1 1 = none ∧
      dlookup (unsuitability [] [eAEv, eAEv]) 1 = none ∧
      ∀ k l, dlookup (clashes [eAEv, eAEv] []).2.1 k = some l → 1 ∉ l) :=
  ⟨⟨by decide, by decide, rfl, by decide⟩,
    c10_duplicate_events [eAEv, eAEv] [] [] [] [] 0 1 (by decide) (by decide)
      rfl (by decide)⟩

end Scheduler
